import Mathlib

/-!
Verification of the natural-language specification of
`fineGrainedSentimentAnalysis/lime_explainer.py` against a shallow
embedding of that script.

The script is glue over external libraries (pandas, scikit-learn, spaCy,
LIME).  Pure Python string operations are embedded faithfully
(`pyReplace` for `str.replace`, `pyInt` for `int(...)`, `pySplit` for
`str.split()`); the repository's own control flow (wrapper classes, the
`explainer` function and the CLI driver `main`) is embedded as Lean
definitions over those, with external-library effects represented
explicitly (an abstract model-fitting function, event traces for calls
and file writes).  Parts whose behaviour lives only in external
libraries or data files are modelled from the spec and marked as such in
their doc comments.
-/

namespace SentimentLime

/-! ## Python string primitives used by the script -/

/-- One scan step of Python `str.replace(pat, repl)` on character lists:
replaces non-overlapping occurrences of `pat` left to right.  `fuel` is
an upper bound on the remaining length, making the recursion structural. -/
def pyReplaceAux (pat repl : List Char) : Nat → List Char → List Char
  | _, [] => []
  | 0, l => l
  | fuel + 1, c :: rest =>
    if pat.isPrefixOf (c :: rest) && !pat.isEmpty then
      repl ++ pyReplaceAux pat repl fuel (rest.drop (pat.length - 1))
    else
      c :: pyReplaceAux pat repl fuel rest

/-- Python `str.replace(pat, repl)` on character lists (for nonempty `pat`). -/
def pyReplaceList (pat repl l : List Char) : List Char :=
  pyReplaceAux pat repl l.length l

/-- Python `s.replace(pat, repl)` for strings. -/
def pyReplace (s pat repl : String) : String :=
  String.mk (pyReplaceList pat.toList repl.toList s.toList)

/-- Value of a nonempty all-digit character list, as Python `int` reads it. -/
def digitsVal (l : List Char) : Option Nat :=
  if !l.isEmpty && l.all Char.isDigit then
    some (l.foldl (fun a c => 10 * a + (c.toNat - 48)) 0)
  else
    none

/-- Python `int(s)` (decimal, optional sign; `none` models `ValueError`,
which pandas `astype(int)` propagates). -/
def pyInt (s : String) : Option Int :=
  match s.toList with
  | '-' :: rest => (digitsVal rest).map fun n => -(n : Int)
  | '+' :: rest => (digitsVal rest).map fun n => (n : Int)
  | l => (digitsVal l).map fun n => (n : Int)

/-- Whether `pat` occurs as a contiguous sublist of `l`. -/
def containsSub (pat : List Char) : List Char → Bool
  | [] => pat.isEmpty
  | l@(_ :: rest) => pat.isPrefixOf l || containsSub pat rest

/-! ## Dataset loader (`__init__` of both wrapper classes)

`self.train_df['truth'] = self.train_df['truth'].str.replace('__label__', '')`
followed by `.astype(int).astype('category')`. -/

/-- The transformation applied to one label field by both wrapper
constructors: replace `"__label__"` by the empty string, then cast to
integer (the subsequent `astype('category')` keeps the integer values as
categories). -/
def labelTransform (label : String) : Option Int :=
  pyInt (pyReplace label "__label__" "")

/-- Load the parsed TSV rows `(truth, text)` into the wrapper's training
table, applying `labelTransform` to every label; `none` models the
uncaught pandas cast error. -/
def mkTrainDf (rows : List (String × String)) : Option (List (Int × String)) :=
  rows.mapM fun r => (labelTransform r.1).map fun v => (v, r.2)

/-! ## Lemmas about `pyReplace` -/

theorem containsSub_subset {pat l : List Char} (h : containsSub pat l = true) :
    ∀ c ∈ pat, c ∈ l := by
  induction l with
  | nil =>
    simp only [containsSub, List.isEmpty_iff] at h
    simp [h]
  | cons x rest ih =>
    simp only [containsSub, Bool.or_eq_true] at h
    rcases h with h | h
    · intro c hc
      exact (List.IsPrefix.sublist (List.isPrefixOf_iff_prefix.mp h)).subset hc
    · intro c hc
      exact List.mem_cons_of_mem x (ih h c hc)

theorem pyReplaceAux_of_not_contains (pat repl : List Char) :
    ∀ fuel l, l.length ≤ fuel → containsSub pat l = false →
      pyReplaceAux pat repl fuel l = l := by
  intro fuel
  induction fuel with
  | zero =>
    intro l hlen _
    have : l = [] := List.length_eq_zero.mp (Nat.le_zero.mp hlen)
    subst this
    rfl
  | succ n ih =>
    intro l hlen hocc
    cases l with
    | nil => rfl
    | cons c rest =>
      simp only [containsSub, Bool.or_eq_false_iff] at hocc
      simp only [pyReplaceAux, hocc.1, Bool.false_and, if_neg Bool.false_ne_true]
      have : rest.length ≤ n := Nat.le_of_succ_le_succ (by simpa using hlen)
      rw [ih rest this hocc.2]

theorem pyReplaceList_strip {pat repl s : List Char} (hne : pat ≠ [])
    (hocc : containsSub pat s = false) :
    pyReplaceList pat repl (pat ++ s) = repl ++ s := by
  cases pat with
  | nil => exact absurd rfl hne
  | cons p ps =>
    show pyReplaceAux (p :: ps) repl ((p :: ps) ++ s).length ((p :: ps) ++ s) = repl ++ s
    have hlen : ((p :: ps) ++ s).length = (ps ++ s).length + 1 := by
      simp [Nat.add_comm, Nat.add_left_comm]
    rw [hlen]
    have hpre : (p :: ps).isPrefixOf (p :: (ps ++ s)) = true :=
      List.isPrefixOf_iff_prefix.mpr ⟨s, by simp⟩
    show pyReplaceAux (p :: ps) repl ((ps ++ s).length + 1) (p :: (ps ++ s)) = repl ++ s
    simp only [pyReplaceAux, hpre, List.isEmpty_cons, Bool.not_false, Bool.and_true,
      Bool.and_self, if_true, if_pos]
    have hdrop : (ps ++ s).drop ((p :: ps).length - 1) = s := by
      simp [List.drop_left]
    rw [hdrop]
    have hslen : s.length ≤ (ps ++ s).length := by simp
    rw [pyReplaceAux_of_not_contains (p :: ps) repl _ s hslen hocc]

theorem toList_append (a b : String) : (a ++ b).toList = a.toList ++ b.toList := by
  cases a; cases b; rfl

theorem mk_toList (s : String) : String.mk s.toList = s := by
  cases s; rfl

/-! ## The method registry (`METHODS`) -/

/-- One entry of the `METHODS` dict: class name, training-file path,
display name, lowercasing flag. -/
structure MethodConfig where
  className : String
  file : String
  displayName : String
  lowercase : Bool
deriving DecidableEq, Repr

/-- The `'logistic'` entry of the registry. -/
def logisticCfg : MethodConfig :=
  { className := "LogisticExplainer", file := "data/sst/sst_train.txt",
    displayName := "Logistic Regression", lowercase := false }

/-- The `'svm'` entry of the registry. -/
def svmCfg : MethodConfig :=
  { className := "SVMExplainer", file := "data/sst/sst_train.txt",
    displayName := "Support Vector Machine", lowercase := false }

/-- The `METHODS` registry, in insertion order. -/
def METHODS : List (String × MethodConfig) :=
  [("logistic", logisticCfg), ("svm", svmCfg)]

/-- `method_list` in `main`: the registry's keys. -/
def method_list : List String := METHODS.map (fun p => p.1)

/-- C2: for every training record, the dataset loader strips the fixed
literal prefix `"__label__"` from the label column and casts the
remainder to an integer categorical value; in particular a label field
`"__label__3"` loads as integer category `3`.  The remainder of a
well-formed training label contains no underscore, under which the
code's replace-all coincides with prefix stripping. -/
theorem C2_label_strip :
    (∀ s : String, ('_' ∈ s.toList → False) →
      labelTransform ("__label__" ++ s) = pyInt s)
    ∧ labelTransform "__label__3" = some 3 := by
  constructor
  · intro s hu
    have hocc : containsSub "__label__".toList s.toList = false := by
      by_contra h
      have h' : containsSub "__label__".toList s.toList = true := by
        simpa using h
      exact hu (containsSub_subset h' '_' (by decide))
    unfold labelTransform pyReplace
    rw [toList_append, pyReplaceList_strip (by decide) hocc]
    show pyInt (String.mk ([] ++ s.toList)) = pyInt s
    rw [List.nil_append, mk_toList]
  · decide

/-- Witness for C2 at the remainder `"3"`. -/
theorem C2_label_strip_witness :
    labelTransform ("__label__" ++ "3") = pyInt "3" :=
  C2_label_strip.1 "3" (by decide)

/-! ## Tokenizer (`tokenizer` in the script)

The script runs a freshly constructed spaCy `blank('en')` pipeline with a
sentencizer over the text and joins the resulting token texts with single
spaces. -/

/-- A character treated as punctuation by the token splitter: neither
alphanumeric nor whitespace. -/
def isPunctChar (c : Char) : Bool := !c.isAlphanum && !c.isWhitespace

/-- Split into maximal whitespace-free runs, dropping the whitespace
(the accumulator holds the current run, reversed). -/
def wsSplitAux : List Char → List Char → List (List Char)
  | [], acc => if acc.isEmpty then [] else [acc.reverse]
  | c :: rest, acc =>
    if c.isWhitespace then
      if acc.isEmpty then wsSplitAux rest []
      else acc.reverse :: wsSplitAux rest []
    else
      wsSplitAux rest (c :: acc)

/-- Whitespace split (also the semantics of Python `str.split()` with no
arguments, used by the LIME `split_expression` lambda). -/
def wsSplit (l : List Char) : List (List Char) := wsSplitAux l []

/-- Modelled from the spec: the word-level splitting done by the spaCy
tokenizer (an external library, absent from `src/`): a whitespace-free
chunk is split into its leading punctuation characters, a core, and its
trailing punctuation characters, with punctuation separated from
adjacent words (spec section 4.3 and section 8). -/
def splitTok (l : List Char) : List (List Char) :=
  match l.dropWhile isPunctChar with
  | [] => (l.takeWhile isPunctChar).map fun c => [c]
  | rest@(_ :: _) =>
    ((l.takeWhile isPunctChar).map fun c => [c]) ++
      ((rest.reverse.dropWhile isPunctChar).reverse ::
        ((rest.reverse.takeWhile isPunctChar).reverse.map fun c => [c]))

/-- The token texts produced by the modelled spaCy pipeline on a raw text. -/
def tokList (l : List Char) : List (List Char) :=
  ((wsSplit l).map splitTok).flatten

/-- `' '.join(...)`: concatenate with single spaces between elements. -/
def joinSp : List (List Char) → List Char
  | [] => []
  | t :: ts => if ts.isEmpty then t else t ++ ' ' :: joinSp ts

/-- The script's `tokenizer`: tokenize, then join the token texts with
single spaces. -/
def tokenizer (text : String) : String :=
  String.mk (joinSp (tokList text.toList))

/-- Whether a list is nonempty with a non-punctuation first element. -/
def headNotPunct : List Char → Bool
  | [] => false
  | c :: _ => !isPunctChar c

/-- A token that the splitter leaves whole: a single character, or a run
whose first and last characters are not punctuation. -/
def atomTok : List Char → Bool
  | [] => false
  | [_] => true
  | t@(_ :: _ :: _) => headNotPunct t && headNotPunct t.reverse

theorem dropWhile_head_false {α : Type} (p : α → Bool) :
    ∀ l : List α, ∀ c rest, l.dropWhile p = c :: rest → p c = false := by
  intro l
  induction l with
  | nil => intro c rest h; simp [List.dropWhile] at h
  | cons x xs ih =>
    intro c rest h
    by_cases hx : p x
    · rw [List.dropWhile_cons_of_pos hx] at h
      exact ih c rest h
    · rw [List.dropWhile_cons_of_neg hx] at h
      injection h with h1 _
      subst h1
      simpa using hx

theorem dropWhile_getLast? {α : Type} (p : α → Bool) :
    ∀ l : List α, l.dropWhile p ≠ [] →
      (l.dropWhile p).getLast? = l.getLast? := by
  intro l
  induction l with
  | nil => intro h; simp [List.dropWhile] at h
  | cons x xs ih =>
    intro h
    by_cases hx : p x
    · rw [List.dropWhile_cons_of_pos hx] at h ⊢
      have hxs : xs ≠ [] := by
        intro he
        subst he
        simp [List.dropWhile] at h
      rw [ih h]
      cases xs with
      | nil => exact absurd rfl hxs
      | cons y ys => rw [List.getLast?_cons_cons]
    · rw [List.dropWhile_cons_of_neg hx]

theorem headNotPunct_of_head? {t : List Char} {ch : Char}
    (h : t.head? = some ch) (hp : isPunctChar ch = false) :
    headNotPunct t = true := by
  cases t with
  | nil => simp at h
  | cons c rest =>
    simp only [List.head?_cons, Option.some.injEq] at h
    subst h
    simp [headNotPunct, hp]

theorem atomTok_of_ends {t : List Char} (h1 : t ≠ [])
    (h2 : headNotPunct t = true) (h3 : headNotPunct t.reverse = true) :
    atomTok t = true := by
  cases t with
  | nil => exact absurd rfl h1
  | cons a r =>
    cases r with
    | nil => rfl
    | cons b r' =>
      have hdef : atomTok (a :: b :: r')
          = (headNotPunct (a :: b :: r') && headNotPunct (a :: b :: r').reverse) := rfl
      rw [hdef, h2, h3]
      rfl

/-- Every token produced by `splitTok` is atomic. -/
theorem splitTok_atom (l : List Char) :
    ∀ t ∈ splitTok l, atomTok t = true := by
  intro t ht
  cases hrest : l.dropWhile isPunctChar with
  | nil =>
    rw [splitTok, hrest] at ht
    obtain ⟨c, _, rfl⟩ := List.mem_map.mp ht
    rfl
  | cons c rest' =>
    rw [splitTok, hrest] at ht
    rcases List.mem_append.mp ht with hpre | hrest2
    · obtain ⟨x, _, rfl⟩ := List.mem_map.mp hpre
      rfl
    · rcases List.mem_cons.mp hrest2 with hcore | hsuf
      · -- the core token
        subst hcore
        set rest : List Char := c :: rest' with hrestdef
        set d : List Char := rest.reverse.dropWhile isPunctChar with hd
        have hc_notp : isPunctChar c = false :=
          dropWhile_head_false isPunctChar l c rest' hrest
        have hc_mem : c ∈ rest.reverse := by simp [hrestdef]
        have hd_ne : d ≠ [] := by
          intro he
          have := List.dropWhile_eq_nil_iff.mp he c hc_mem
          simp [hc_notp] at this
        have hd_head : headNotPunct d = true := by
          cases hdc : d with
          | nil => exact absurd hdc hd_ne
          | cons e d' =>
            have : isPunctChar e = false :=
              dropWhile_head_false isPunctChar rest.reverse e d' (hd ▸ hdc)
            simp [headNotPunct, this]
        have hd_last : d.getLast? = some c := by
          rw [hd, dropWhile_getLast? isPunctChar rest.reverse (hd ▸ hd_ne)]
          simp [hrestdef]
        refine atomTok_of_ends (by simp [hd_ne]) ?_ ?_
        · exact headNotPunct_of_head?
            (by rw [List.head?_reverse]; exact hd_last) hc_notp
        · rw [List.reverse_reverse]
          exact hd_head
      · obtain ⟨x, _, rfl⟩ := List.mem_map.mp hsuf
        rfl

/-- Every token produced by `splitTok` on a whitespace-free chunk is
nonempty and whitespace-free. -/
theorem splitTok_good (l : List Char)
    (hl : ∀ c ∈ l, c.isWhitespace = false) :
    ∀ t ∈ splitTok l, t ≠ [] ∧ ∀ c ∈ t, c.isWhitespace = false := by
  intro t ht
  cases hrest : l.dropWhile isPunctChar with
  | nil =>
    rw [splitTok, hrest] at ht
    obtain ⟨x, hx, rfl⟩ := List.mem_map.mp ht
    refine ⟨by simp, ?_⟩
    intro c hc
    rw [List.mem_singleton] at hc
    subst hc
    exact hl c ((List.takeWhile_sublist isPunctChar).subset hx)
  | cons x0 rest' =>
    rw [splitTok, hrest] at ht
    have hrest_sub : ∀ y ∈ (x0 :: rest' : List Char), y ∈ l := by
      intro y hy
      have : y ∈ l.dropWhile isPunctChar := hrest ▸ hy
      exact (List.dropWhile_sublist isPunctChar).subset this
    rcases List.mem_append.mp ht with hpre | hrest2
    · obtain ⟨x, hx, rfl⟩ := List.mem_map.mp hpre
      refine ⟨by simp, ?_⟩
      intro c hc
      rw [List.mem_singleton] at hc
      subst hc
      exact hl c ((List.takeWhile_sublist isPunctChar).subset hx)
    · rcases List.mem_cons.mp hrest2 with hcore | hsuf
      · subst hcore
        constructor
        · simp only [ne_eq, List.reverse_eq_nil_iff]
          intro he
          have hc_notp : isPunctChar x0 = false :=
            dropWhile_head_false isPunctChar l x0 rest' hrest
          have := List.dropWhile_eq_nil_iff.mp he x0 (by simp)
          simp [hc_notp] at this
        · intro c hc
          rw [List.mem_reverse] at hc
          have hc2 := (List.dropWhile_sublist isPunctChar).subset hc
          rw [List.mem_reverse] at hc2
          exact hl c (hrest_sub c hc2)
      · obtain ⟨x, hx, rfl⟩ := List.mem_map.mp hsuf
        refine ⟨by simp, ?_⟩
        intro c hc
        rw [List.mem_singleton] at hc
        subst hc
        rw [List.mem_reverse] at hx
        have := (List.takeWhile_sublist isPunctChar).subset hx
        rw [List.mem_reverse] at this
        exact hl c (hrest_sub c this)

/-- Every chunk produced by `wsSplitAux` is nonempty and whitespace-free. -/
theorem wsSplitAux_good :
    ∀ l acc : List Char, (∀ c ∈ acc, c.isWhitespace = false) →
      ∀ t ∈ wsSplitAux l acc, t ≠ [] ∧ ∀ c ∈ t, c.isWhitespace = false := by
  intro l
  induction l with
  | nil =>
    intro acc hacc t ht
    simp only [wsSplitAux] at ht
    by_cases he : acc.isEmpty = true
    · rw [if_pos he] at ht
      simp at ht
    · rw [if_neg he] at ht
      rw [List.mem_singleton] at ht
      subst ht
      refine ⟨by simpa using he, ?_⟩
      intro c hc
      rw [List.mem_reverse] at hc
      exact hacc c hc
  | cons x rest ih =>
    intro acc hacc t ht
    simp only [wsSplitAux] at ht
    by_cases hx : x.isWhitespace = true
    · rw [if_pos hx] at ht
      by_cases he : acc.isEmpty = true
      · rw [if_pos he] at ht
        exact ih [] (by simp) t ht
      · rw [if_neg he] at ht
        rcases List.mem_cons.mp ht with h1 | h1
        · subst h1
          refine ⟨by simpa using he, ?_⟩
          intro c hc
          rw [List.mem_reverse] at hc
          exact hacc c hc
        · exact ih [] (by simp) t h1
    · rw [if_neg hx] at ht
      refine ih (x :: acc) ?_ t ht
      intro c hc
      rcases List.mem_cons.mp hc with h1 | h1
      · subst h1
        simpa using hx
      · exact hacc c h1

/-- Scanning a whitespace-free run moves it whole into the accumulator. -/
theorem wsSplitAux_append :
    ∀ t : List Char, (∀ c ∈ t, c.isWhitespace = false) →
      ∀ r acc, wsSplitAux (t ++ r) acc = wsSplitAux r (t.reverse ++ acc) := by
  intro t
  induction t with
  | nil => intro _ r acc; simp
  | cons c t' ih =>
    intro hws r acc
    have hc : c.isWhitespace = false := hws c (by simp)
    show wsSplitAux (c :: (t' ++ r)) acc = _
    rw [wsSplitAux, if_neg (by simp [hc])]
    rw [ih (fun d hd => hws d (by simp [hd])) r (c :: acc)]
    congr 1
    simp

/-- Splitting on whitespace is a left inverse of joining nonempty
whitespace-free tokens with single spaces. -/
theorem wsSplit_joinSp :
    ∀ ts : List (List Char),
      (∀ t ∈ ts, t ≠ [] ∧ ∀ c ∈ t, c.isWhitespace = false) →
      wsSplit (joinSp ts) = ts := by
  intro ts
  induction ts with
  | nil => intro _; rfl
  | cons t ts ih =>
    intro h
    obtain ⟨htne, htws⟩ := h t (List.mem_cons_self t ts)
    cases ts with
    | nil =>
      show wsSplitAux t [] = [t]
      have h1 := wsSplitAux_append t htws [] []
      rw [List.append_nil, List.append_nil] at h1
      rw [h1, wsSplitAux, if_neg (by simpa using htne), List.reverse_reverse]
    | cons t2 ts2 =>
      show wsSplitAux (t ++ ' ' :: joinSp (t2 :: ts2)) [] = t :: t2 :: ts2
      rw [wsSplitAux_append t htws (' ' :: joinSp (t2 :: ts2)) []]
      rw [List.append_nil]
      rw [wsSplitAux, if_pos (by decide), if_neg (by simpa using htne)]
      rw [List.reverse_reverse]
      have ih' : wsSplitAux (joinSp (t2 :: ts2)) [] = t2 :: ts2 :=
        ih (fun u hu => h u (List.mem_cons_of_mem t hu))
      rw [ih']

/-- Every token of `tokList` is nonempty and whitespace-free. -/
theorem tokList_good (l : List Char) :
    ∀ t ∈ tokList l, t ≠ [] ∧ ∀ c ∈ t, c.isWhitespace = false := by
  intro t ht
  obtain ⟨ts, hts, htin⟩ := List.mem_flatten.mp ht
  obtain ⟨chunk, hchunk, rfl⟩ := List.mem_map.mp hts
  have hgood := wsSplitAux_good l [] (by simp) chunk hchunk
  exact splitTok_good chunk hgood.2 t htin

/-- Every token of `tokList` is atomic for `splitTok`. -/
theorem tokList_atom (l : List Char) :
    ∀ t ∈ tokList l, atomTok t = true := by
  intro t ht
  obtain ⟨ts, hts, htin⟩ := List.mem_flatten.mp ht
  obtain ⟨chunk, _, rfl⟩ := List.mem_map.mp hts
  exact splitTok_atom chunk t htin

/-- `splitTok` leaves an atomic token whole. -/
theorem splitTok_of_atom {t : List Char} (h : atomTok t = true) :
    splitTok t = [t] := by
  cases t with
  | nil => simp [atomTok] at h
  | cons a r =>
    cases r with
    | nil =>
      by_cases hp : isPunctChar a = true
      · simp [splitTok, List.dropWhile, List.takeWhile, hp]
      · simp [splitTok, List.dropWhile, List.takeWhile, hp]
    | cons b r' =>
      have hdef : atomTok (a :: b :: r')
          = (headNotPunct (a :: b :: r') && headNotPunct (a :: b :: r').reverse) := rfl
      rw [hdef, Bool.and_eq_true] at h
      obtain ⟨hh, hr⟩ := h
      have hpa : isPunctChar a = false := by
        simpa [headNotPunct] using hh
      have hdrop : (a :: b :: r').dropWhile isPunctChar = a :: b :: r' :=
        List.dropWhile_cons_of_neg (by simp [hpa])
      have htake : (a :: b :: r').takeWhile isPunctChar = [] :=
        List.takeWhile_cons_of_neg (by simp [hpa])
      cases hrev : (a :: b :: r').reverse with
      | nil => simp at hrev
      | cons e rev' =>
        have hpe : isPunctChar e = false := by
          rw [hrev] at hr
          simpa [headNotPunct] using hr
        have hdrop2 : (e :: rev').dropWhile isPunctChar = e :: rev' :=
          List.dropWhile_cons_of_neg (by simp [hpe])
        have htake2 : (e :: rev').takeWhile isPunctChar = [] :=
          List.takeWhile_cons_of_neg (by simp [hpe])
        have hrev2 : (e :: rev').reverse = a :: b :: r' := by
          rw [← hrev, List.reverse_reverse]
        simp [splitTok, hdrop, htake, hrev, hdrop2, htake2, hrev2]

theorem flatten_map_singleton {α : Type} (ts : List α) :
    (ts.map fun t => [t]).flatten = ts := by
  induction ts with
  | nil => rfl
  | cons t ts ih => simp [ih]

/-- C7: the tokenizer is idempotent: for every input string, applying the
tokenizer to its own output (the tokens of the input joined by single
spaces) returns that output unchanged. -/
theorem C7_tokenizer_idempotent :
    ∀ text : String, tokenizer (tokenizer text) = tokenizer text := by
  intro text
  have hsplit : wsSplit (joinSp (tokList text.toList)) = tokList text.toList :=
    wsSplit_joinSp _ (tokList_good text.toList)
  have hmap : (tokList text.toList).map splitTok
      = (tokList text.toList).map (fun t => [t]) :=
    List.map_congr_left (fun t ht => splitTok_of_atom (tokList_atom text.toList t ht))
  have hmain : tokList (joinSp (tokList text.toList)) = tokList text.toList := by
    show ((wsSplit (joinSp (tokList text.toList))).map splitTok).flatten
        = tokList text.toList
    rw [hsplit, hmap, flatten_map_singleton]
  show String.mk (joinSp (tokList (String.mk (joinSp (tokList text.toList))).toList))
      = String.mk (joinSp (tokList text.toList))
  rw [show (String.mk (joinSp (tokList text.toList))).toList
      = joinSp (tokList text.toList) from rfl]
  rw [hmain]

/-! ## Classifier wrappers (`LogisticExplainer`, `SVMExplainer`)

`train()` builds a three-step pipeline (`vect`, `tfidf`, `clf`) with the
hyperparameters below and fits it on the stored table; `predict(texts)`
calls `train()` and returns the fitted pipeline's `predict_proba`. -/

/-- The linear classifier's hyperparameters, as configured in `train`. -/
inductive ClfSpec
  | logisticRegression (solver : String) (multiClass : String)
      (randomState : Nat) (maxIter : Nat)
  | sgdClassifier (loss : String) (penalty : String) (alpha : ℚ)
      (randomState : Nat) (maxIter : Nat) (tolNone : Bool)
deriving DecidableEq, Repr

/-- A pipeline description: named steps plus the classifier config. -/
structure PipelineSpec where
  steps : List String
  clf : ClfSpec
deriving DecidableEq, Repr

/-- The pipeline built by `LogisticExplainer.train`. -/
def logisticPipeline : PipelineSpec :=
  { steps := ["vect", "tfidf", "clf"],
    clf := ClfSpec.logisticRegression "newton-cg" "multinomial" 42 100 }

/-- The pipeline built by `SVMExplainer.train`. -/
def svmPipeline : PipelineSpec :=
  { steps := ["vect", "tfidf", "clf"],
    clf := ClfSpec.sgdClassifier "modified_huber" "l2" (1 / 1000) 42 100 true }

/-- The loaded training table (`truth`, `text` columns). -/
abbrev TrainDf := List (Int × String)

/-- Modelled from the spec: fitting a scikit-learn pipeline is external
library behaviour, so it is an arbitrary parameter producing per-class
scores for a text over the fixed five classes. -/
abbrev FitModel := PipelineSpec → TrainDf → String → Fin 5 → ℚ

/-- Modelled from the spec: `predict_proba` of the fitted linear
classifiers returns one probability row per input, over the fixed class
ordering 1..5, by normalizing nonnegative per-class scores (uniform when
all scores vanish). -/
def probRow (r : Fin 5 → ℚ) : List ℚ :=
  if r 0 + r 1 + r 2 + r 3 + r 4 = 0 then
    [1 / 5, 1 / 5, 1 / 5, 1 / 5, 1 / 5]
  else
    [r 0 / (r 0 + r 1 + r 2 + r 3 + r 4),
     r 1 / (r 0 + r 1 + r 2 + r 3 + r 4),
     r 2 / (r 0 + r 1 + r 2 + r 3 + r 4),
     r 3 / (r 0 + r 1 + r 2 + r 3 + r 4),
     r 4 / (r 0 + r 1 + r 2 + r 3 + r 4)]

/-- `classifier.predict_proba(texts)`: one probability row per text. -/
def predictProba (clf : String → Fin 5 → ℚ) (texts : List String) :
    List (List ℚ) :=
  texts.map fun t => probRow (clf t)

/-- Observable external-library calls made by a wrapper. -/
inductive WrapperEvent
  | fitCall (p : PipelineSpec)
  | predictProbaCall
deriving DecidableEq, Repr

/-- The logistic-regression wrapper: its only state is the training table. -/
structure LogisticExplainer where
  train_df : TrainDf
deriving DecidableEq, Repr

/-- The linear-SVM wrapper: its only state is the training table. -/
structure SVMExplainer where
  train_df : TrainDf
deriving DecidableEq, Repr

/-- `LogisticExplainer.train`: fit a fresh pipeline on the stored table;
the trace records the fit call. -/
def LogisticExplainer.train (fit : FitModel) (w : LogisticExplainer) :
    (String → Fin 5 → ℚ) × List WrapperEvent :=
  (fit logisticPipeline w.train_df, [WrapperEvent.fitCall logisticPipeline])

/-- `LogisticExplainer.predict`: train, then return `predict_proba`. -/
def LogisticExplainer.predict (fit : FitModel) (w : LogisticExplainer)
    (texts : List String) : List (List ℚ) × List WrapperEvent :=
  let c := w.train fit
  (predictProba c.1 texts, c.2 ++ [WrapperEvent.predictProbaCall])

/-- `SVMExplainer.train`: fit a fresh pipeline on the stored table. -/
def SVMExplainer.train (fit : FitModel) (w : SVMExplainer) :
    (String → Fin 5 → ℚ) × List WrapperEvent :=
  (fit svmPipeline w.train_df, [WrapperEvent.fitCall svmPipeline])

/-- `SVMExplainer.predict`: train, then return `predict_proba`. -/
def SVMExplainer.predict (fit : FitModel) (w : SVMExplainer)
    (texts : List String) : List (List ℚ) × List WrapperEvent :=
  let c := w.train fit
  (predictProba c.1 texts, c.2 ++ [WrapperEvent.predictProbaCall])

/-- A concrete fitting function, for witnesses. -/
def constFit : FitModel := fun _ _ _ _ => 1

/-- C1: on both wrappers, every `predict(texts)` call first invokes
`train()`, fitting a fresh pipeline from the stored training table, then
returns that pipeline's class-probability output for `texts`; and the
wrapper carries no fitted pipeline between calls (its state is exactly
the training table). -/
theorem C1_predict_retrains :
    ∀ (fit : FitModel) (wl : LogisticExplainer) (ws : SVMExplainer)
      (texts : List String),
      wl.predict fit texts
        = (predictProba (fit logisticPipeline wl.train_df) texts,
           [WrapperEvent.fitCall logisticPipeline, WrapperEvent.predictProbaCall])
      ∧ ws.predict fit texts
        = (predictProba (fit svmPipeline ws.train_df) texts,
           [WrapperEvent.fitCall svmPipeline, WrapperEvent.predictProbaCall])
      ∧ (∀ w1 w2 : LogisticExplainer, w1.train_df = w2.train_df → w1 = w2)
      ∧ (∀ w1 w2 : SVMExplainer, w1.train_df = w2.train_df → w1 = w2) := by
  intro fit wl ws texts
  refine ⟨rfl, rfl, ?_, ?_⟩
  · intro w1 w2 h
    cases w1
    cases w2
    simpa using h
  · intro w1 w2 h
    cases w1
    cases w2
    simpa using h

/-- Witness for C1: the no-retained-state conjunct at the empty table. -/
theorem C1_predict_retrains_witness :
    (⟨[]⟩ : LogisticExplainer) = ⟨[]⟩ :=
  (C1_predict_retrains constFit ⟨[]⟩ ⟨[]⟩ []).2.2.1 ⟨[]⟩ ⟨[]⟩ rfl

theorem probRow_length (r : Fin 5 → ℚ) : (probRow r).length = 5 := by
  rw [probRow]
  split <;> rfl

theorem probRow_sum (r : Fin 5 → ℚ) : (probRow r).sum = 1 := by
  rw [probRow]
  by_cases hs : r 0 + r 1 + r 2 + r 3 + r 4 = 0
  · rw [if_pos hs]
    norm_num
  · rw [if_neg hs]
    show r 0 / _ + (r 1 / _ + (r 2 / _ + (r 3 / _ + (r 4 / _ + 0)))) = 1
    field_simp
    ring

/-- C8: for every input list of N texts, `predict` on either wrapper
returns a 2-D array of shape (N, 5) whose every row sums to 1 (exactly,
in the rational model). -/
theorem C8_predict_shape :
    ∀ (fit : FitModel) (wl : LogisticExplainer) (ws : SVMExplainer)
      (texts : List String),
      ((wl.predict fit texts).1.length = texts.length
        ∧ (wl.predict fit texts).1.all
            (fun row => row.length == 5 && decide (row.sum = 1)) = true)
      ∧ ((ws.predict fit texts).1.length = texts.length
        ∧ (ws.predict fit texts).1.all
            (fun row => row.length == 5 && decide (row.sum = 1)) = true) := by
  intro fit wl ws texts
  have hall : ∀ clf : String → Fin 5 → ℚ,
      (predictProba clf texts).all
        (fun row => row.length == 5 && decide (row.sum = 1)) = true := by
    intro clf
    rw [List.all_eq_true]
    intro row hrow
    obtain ⟨t, _, rfl⟩ := List.mem_map.mp hrow
    simp [probRow_length, probRow_sum]
  refine ⟨⟨?_, hall _⟩, ⟨?_, hall _⟩⟩
  · simp [LogisticExplainer.predict, LogisticExplainer.train, predictProba]
  · simp [SVMExplainer.predict, SVMExplainer.train, predictProba]

/-! ## Dynamic dispatch and the `explainer` function -/

/-- The wrapper instantiated by `explainer_class` via its class name. -/
inductive Wrapper
  | logistic (w : LogisticExplainer)
  | svm (w : SVMExplainer)
deriving DecidableEq, Repr

/-- The Python class name of a wrapper value. -/
def wrapperClassName : Wrapper → String
  | Wrapper.logistic _ => "LogisticExplainer"
  | Wrapper.svm _ => "SVMExplainer"

/-- `explainer_class(method, filename)`: look up the method's class name
in the registry and instantiate that class on the training file.
`readTsv` models the file system (path to parsed TSV rows); `none`
models a `KeyError`, a failed `globals()` lookup, or a dataset load
error. -/
def explainer_class (readTsv : String → List (String × String))
    (method filename : String) : Option Wrapper :=
  match List.lookup method METHODS with
  | none => none
  | some cfg =>
    if cfg.className = "LogisticExplainer" then
      (mkTrainDf (readTsv filename)).map fun df => Wrapper.logistic ⟨df⟩
    else if cfg.className = "SVMExplainer" then
      (mkTrainDf (readTsv filename)).map fun df => Wrapper.svm ⟨df⟩
    else none

/-- Python `str.split()` with no arguments: split on whitespace runs,
dropping empties (the LIME `split_expression` lambda). -/
def pySplit (s : String) : List String :=
  (wsSplit s.toList).map fun l => String.mk l

/-- The configuration passed to the `LimeTextExplainer` constructor. -/
structure LimeTextExplainerCfg where
  splitExpression : String → List String
  bow : Bool
  classNames : List Nat

/-- The arguments of the `explain_instance` call. -/
structure ExplainCall where
  text : String
  topLabels : Nat
  numFeatures : Nat
  numSamples : Nat
deriving DecidableEq, Repr

/-- One run of the `explainer` function: the constructed wrapper (whose
`predict` is passed as the black-box `classifier_fn`), the LIME
configuration, and the `explain_instance` arguments. -/
structure ExplainRun where
  wrapper : Wrapper
  limeCfg : LimeTextExplainerCfg
  call : ExplainCall

/-- The script's `explainer` function: construct the wrapper, optionally
lowercase the text, build the `LimeTextExplainer` and request the
explanation of the top predicted class. -/
def explainer (readTsv : String → List (String × String))
    (method path_to_file text : String) (lowercase : Bool)
    (num_samples : Nat) : Option ExplainRun :=
  match explainer_class readTsv method path_to_file with
  | none => none
  | some model =>
    some
      { wrapper := model,
        limeCfg :=
          { splitExpression := pySplit, bow := false,
            classNames := [1, 2, 3, 4, 5] },
        call :=
          { text := if lowercase then text.toLower else text,
            topLabels := 1, numFeatures := 20, numSamples := num_samples } }

/-- C6: for every registered method and input text, `explainer`
lowercases the text iff the method's lowercase flag is set, constructs
the wrapper named by the registry entry, and requests a top-1
explanation with 20 features and the given sample budget, whitespace
splitting, `bow = False`, and class names `[1, 2, 3, 4, 5]`. -/
theorem C6_explainer_config :
    ∀ (readTsv : String → List (String × String)) (method : String)
      (cfg : MethodConfig) (path text : String) (n : Nat) (df : TrainDf),
      List.lookup method METHODS = some cfg →
      mkTrainDf (readTsv path) = some df →
      ∃ run : ExplainRun,
        explainer readTsv method path text cfg.lowercase n = some run
        ∧ run.call.text = (if cfg.lowercase then text.toLower else text)
        ∧ run.call.topLabels = 1
        ∧ run.call.numFeatures = 20
        ∧ run.call.numSamples = n
        ∧ run.limeCfg.bow = false
        ∧ run.limeCfg.classNames = [1, 2, 3, 4, 5]
        ∧ run.limeCfg.splitExpression = pySplit
        ∧ wrapperClassName run.wrapper = cfg.className := by
  intro readTsv method cfg path text n df hm hdf
  by_cases h1 : method = "logistic"
  · subst h1
    have h0 : List.lookup "logistic" METHODS = some logisticCfg := by decide
    rw [h0] at hm
    injection hm with hmm
    subst hmm
    have hec : explainer_class readTsv "logistic" path
        = some (Wrapper.logistic ⟨df⟩) := by
      simp only [explainer_class, h0]
      rw [if_pos (show logisticCfg.className = "LogisticExplainer" from rfl), hdf]
      rfl
    refine ⟨⟨Wrapper.logistic ⟨df⟩,
      ⟨pySplit, false, [1, 2, 3, 4, 5]⟩, ⟨text, 1, 20, n⟩⟩,
      ?_, rfl, rfl, rfl, rfl, rfl, rfl, rfl, rfl⟩
    simp only [explainer, hec]
    rfl
  · by_cases h2 : method = "svm"
    · subst h2
      have h0 : List.lookup "svm" METHODS = some svmCfg := by decide
      rw [h0] at hm
      injection hm with hmm
      subst hmm
      have hec : explainer_class readTsv "svm" path
          = some (Wrapper.svm ⟨df⟩) := by
        simp only [explainer_class, h0]
        rw [if_neg (show ¬svmCfg.className = "LogisticExplainer" by decide)]
        rw [if_pos (show svmCfg.className = "SVMExplainer" from rfl), hdf]
        rfl
      refine ⟨⟨Wrapper.svm ⟨df⟩,
        ⟨pySplit, false, [1, 2, 3, 4, 5]⟩, ⟨text, 1, 20, n⟩⟩,
        ?_, rfl, rfl, rfl, rfl, rfl, rfl, rfl, rfl⟩
      simp only [explainer, hec]
      rfl
    · exfalso
      have hb1 : (method == "logistic") = false := by
        simpa using h1
      have hb2 : (method == "svm") = false := by
        simpa using h2
      simp [METHODS, List.lookup, hb1, hb2] at hm

/-- Witness for C6 at method `"svm"` with an empty training file. -/
theorem C6_explainer_config_witness :
    ∃ run : ExplainRun,
      explainer (fun _ => []) "svm" "p" "Hello" svmCfg.lowercase 7 = some run
      ∧ run.call.text = (if svmCfg.lowercase then "Hello".toLower else "Hello")
      ∧ run.call.topLabels = 1
      ∧ run.call.numFeatures = 20
      ∧ run.call.numSamples = 7
      ∧ run.limeCfg.bow = false
      ∧ run.limeCfg.classNames = [1, 2, 3, 4, 5]
      ∧ run.limeCfg.splitExpression = pySplit
      ∧ wrapperClassName run.wrapper = svmCfg.className :=
  C6_explainer_config (fun _ => []) "svm" svmCfg "p" "Hello" 7 []
    (by decide) rfl

/-! ## CLI driver (`main`) -/

/-- The message passed to `parser.error` when a requested method is not
in the registry; it lists the valid method names. -/
def usageMsg : String :=
  "Please choose from the below existing methods! \n"
    ++ String.intercalate ", " method_list

/-- A `parser.error` exit: argparse prints the message and terminates
the process with status 2. -/
structure CliExit where
  code : Nat
  msg : String
deriving DecidableEq, Repr

/-- Observable actions of `main`, in program order. -/
inductive MainEvent
  | printLine (s : String)
  | explainCall (method path text : String) (lowercase : Bool) (numSamples : Nat)
  | writeHtml (path : String)
deriving DecidableEq, Repr

/-- The output file base name for 0-based sample index `i`:
`"{i+1}-explanation-{method}.html"`. -/
def htmlName (i : Nat) (method : String) : String :=
  toString (i + 1) ++ "-explanation-" ++ method ++ ".html"

/-- The output file path `Path(__file__).parent / htmlName`, with the
script's directory abstracted as `scriptDir`. -/
def htmlPath (scriptDir : String) (i : Nat) (method : String) : String :=
  scriptDir ++ "/" ++ htmlName i method

/-- The events of one iteration of the inner sample loop: print the
progress line, explain the tokenized text, write the HTML file. -/
def sampleEvents (scriptDir method path : String) (lc : Bool) (n : Nat)
    (i : Nat) (text : String) : List MainEvent :=
  [MainEvent.printLine ("Generating LIME explanation for example "
      ++ toString (i + 1) ++ ": `" ++ tokenizer text ++ "`"),
   MainEvent.explainCall method path (tokenizer text) lc n,
   MainEvent.writeHtml (htmlPath scriptDir i method)]

/-- The inner `for i, text in enumerate(samples)` loop, from index `i`. -/
def samplesEvents (scriptDir method path : String) (lc : Bool) (n : Nat) :
    Nat → List String → List MainEvent
  | _, [] => []
  | i, text :: rest =>
    sampleEvents scriptDir method path lc n i text
      ++ samplesEvents scriptDir method path lc n (i + 1) rest

/-- The events of one iteration of the outer method loop. -/
def methodEvents (scriptDir method : String) (cfg : MethodConfig)
    (samples : List String) (n : Nat) : List MainEvent :=
  MainEvent.printLine ("Method: " ++ method.toUpper)
    :: samplesEvents scriptDir method cfg.file cfg.lowercase n 0 samples

/-- `main`'s loop over the requested methods.  Validation happens inside
the loop: an unknown name triggers `parser.error` (usage message, exit
status 2) only after all earlier methods have been fully processed. -/
def runMain (scriptDir : String) (methods samples : List String) (n : Nat) :
    List MainEvent × Option CliExit :=
  match methods with
  | [] => ([], none)
  | m :: rest =>
    match List.lookup m METHODS with
    | none => ([], some { code := 2, msg := usageMsg })
    | some cfg =>
      let r := runMain scriptDir rest samples n
      (methodEvents scriptDir m cfg samples n ++ r.1, r.2)

/-- The HTML paths written by a list of events, in order. -/
def writeEvents (evs : List MainEvent) : List String :=
  evs.filterMap fun e =>
    match e with
    | MainEvent.writeHtml p => some p
    | _ => none

/-- The expected HTML paths for the samples, starting at index `i`. -/
def samplesWrites (scriptDir method : String) : Nat → List String → List String
  | _, [] => []
  | i, _ :: rest =>
    htmlPath scriptDir i method :: samplesWrites scriptDir method (i + 1) rest

/-- Modelled from the spec: `exp.save_to_file` (external LIME library)
opens the target for writing, overwriting any existing file of that
name; the file system is an association list from path to content. -/
def fsWrite (fs : List (String × String)) (name content : String) :
    List (String × String) :=
  (name, content) :: fs.filter fun kv => kv.1 != name

theorem writeEvents_append (a b : List MainEvent) :
    writeEvents (a ++ b) = writeEvents a ++ writeEvents b :=
  List.filterMap_append a b _

theorem writeEvents_samplesEvents (scriptDir method path : String)
    (lc : Bool) (n : Nat) :
    ∀ (samples : List String) (i : Nat),
      writeEvents (samplesEvents scriptDir method path lc n i samples)
        = samplesWrites scriptDir method i samples := by
  intro samples
  induction samples with
  | nil => intro i; rfl
  | cons t rest ih =>
    intro i
    show writeEvents (sampleEvents scriptDir method path lc n i t
        ++ samplesEvents scriptDir method path lc n (i + 1) rest) = _
    rw [writeEvents_append]
    rw [show writeEvents (sampleEvents scriptDir method path lc n i t)
        = [htmlPath scriptDir i method] from rfl]
    rw [ih (i + 1)]
    rfl

theorem writeEvents_methodEvents (scriptDir method : String)
    (cfg : MethodConfig) (samples : List String) (n : Nat) :
    writeEvents (methodEvents scriptDir method cfg samples n)
      = samplesWrites scriptDir method 0 samples := by
  have h0 : writeEvents (methodEvents scriptDir method cfg samples n)
      = writeEvents (samplesEvents scriptDir method cfg.file cfg.lowercase n 0 samples) :=
    rfl
  rw [h0, writeEvents_samplesEvents]

theorem samplesWrites_length (scriptDir method : String) :
    ∀ (samples : List String) (i : Nat),
      (samplesWrites scriptDir method i samples).length = samples.length := by
  intro samples
  induction samples with
  | nil => intro i; rfl
  | cons t rest ih =>
    intro i
    show (htmlPath scriptDir i method
        :: samplesWrites scriptDir method (i + 1) rest).length = rest.length + 1
    rw [List.length_cons, ih (i + 1)]

/-- The per-method trace, given the method is in the registry. -/
def methodTraceOf (scriptDir m : String) (samples : List String) (n : Nat) :
    List MainEvent :=
  match List.lookup m METHODS with
  | some cfg => methodEvents scriptDir m cfg samples n
  | none => []

theorem runMain_all_valid (scriptDir : String) (samples : List String) (n : Nat) :
    ∀ methods : List String,
      (∀ m ∈ methods, (List.lookup m METHODS).isSome = true) →
      runMain scriptDir methods samples n
        = ((methods.map fun m => methodTraceOf scriptDir m samples n).flatten,
           none) := by
  intro methods
  induction methods with
  | nil => intro _; rfl
  | cons m rest ih =>
    intro hval
    obtain ⟨cfg, hcfg⟩ :=
      Option.isSome_iff_exists.mp (hval m (List.mem_cons_self m rest))
    have hrest := ih fun u hu => hval u (List.mem_cons_of_mem m hu)
    simp only [runMain, hcfg]
    rw [hrest]
    simp [methodTraceOf, hcfg]

theorem runMain_exit_of_unknown (scriptDir : String) (samples : List String)
    (n : Nat) (m : String) (hnone : List.lookup m METHODS = none) :
    ∀ methods : List String, m ∈ methods →
      (runMain scriptDir methods samples n).2 = some ⟨2, usageMsg⟩ := by
  intro methods
  induction methods with
  | nil => intro h; simp at h
  | cons m0 rest ih =>
    intro hmem
    cases hl : List.lookup m0 METHODS with
    | none =>
      simp only [runMain, hl]
    | some cfg =>
      rcases List.mem_cons.mp hmem with h | h
      · subst h
        rw [hnone] at hl
        exact Option.noConfusion hl
      · simp only [runMain, hl]
        exact ih h

/-- C3: invoking the CLI with any method name not in the registry causes
a parser-level usage error (status 2, nonzero) whose message lists the
valid method names. -/
theorem C3_unknown_method_usage_error :
    ∀ (scriptDir : String) (methods samples : List String) (n : Nat),
      (∃ m, m ∈ methods ∧ List.lookup m METHODS = none) →
      (runMain scriptDir methods samples n).2 = some ⟨2, usageMsg⟩
      ∧ (2 : Nat) ≠ 0
      ∧ containsSub "logistic".toList usageMsg.toList = true
      ∧ containsSub "svm".toList usageMsg.toList = true := by
  intro scriptDir methods samples n hex
  obtain ⟨m, hmem, hnone⟩ := hex
  exact ⟨runMain_exit_of_unknown scriptDir samples n m hnone methods hmem,
    by decide, by decide, by decide⟩

/-- Witness for C3 at the unknown method name `"bogus"`. -/
theorem C3_unknown_method_usage_error_witness :
    (runMain "d" ["bogus"] ["a"] 5).2 = some ⟨2, usageMsg⟩
    ∧ (2 : Nat) ≠ 0
    ∧ containsSub "logistic".toList usageMsg.toList = true
    ∧ containsSub "svm".toList usageMsg.toList = true :=
  C3_unknown_method_usage_error "d" ["bogus"] ["a"] 5
    ⟨"bogus", by decide, by decide⟩

/-- C4: method validation happens inside the per-method loop: when a
valid method precedes an invalid one, every sample of the valid method
is explained and its HTML files are written before the usage-error exit. -/
theorem C4_validation_inside_loop :
    ∀ (scriptDir m m' : String) (cfg : MethodConfig)
      (samples : List String) (n : Nat),
      List.lookup m METHODS = some cfg →
      List.lookup m' METHODS = none →
      runMain scriptDir [m, m'] samples n
        = (methodEvents scriptDir m cfg samples n, some ⟨2, usageMsg⟩)
      ∧ writeEvents (methodEvents scriptDir m cfg samples n)
          = samplesWrites scriptDir m 0 samples
      ∧ (samplesWrites scriptDir m 0 samples).length = samples.length := by
  intro scriptDir m m' cfg samples n hm hm'
  refine ⟨?_, writeEvents_methodEvents scriptDir m cfg samples n,
    samplesWrites_length scriptDir m samples 0⟩
  simp only [runMain, hm, hm']
  simp

/-- Witness for C4: `"logistic"` before the unknown `"bogus"`. -/
theorem C4_validation_inside_loop_witness :
    runMain "d" ["logistic", "bogus"] ["a"] 3
      = (methodEvents "d" "logistic" logisticCfg ["a"] 3, some ⟨2, usageMsg⟩)
    ∧ writeEvents (methodEvents "d" "logistic" logisticCfg ["a"] 3)
        = samplesWrites "d" "logistic" 0 ["a"]
    ∧ (samplesWrites "d" "logistic" 0 ["a"]).length = (["a"] : List String).length :=
  C4_validation_inside_loop "d" "logistic" "bogus" logisticCfg ["a"] 3
    (by decide) (by decide)

/-- C5: for each (sample, method) pair processed, the CLI writes exactly
one HTML file, named `"{i+1}-explanation-{method}.html"` in the script's
directory; with two samples the names are `"1-explanation-m.html"` and
`"2-explanation-m.html"`, and writing overwrites any existing file of
the same name. -/
theorem C5_html_file_naming :
    ∀ (scriptDir m : String) (cfg : MethodConfig) (samples : List String)
      (n : Nat),
      List.lookup m METHODS = some cfg →
      writeEvents (methodEvents scriptDir m cfg samples n)
          = samplesWrites scriptDir m 0 samples
      ∧ (samplesWrites scriptDir m 0 samples).length = samples.length
      ∧ (∀ i : Nat, htmlPath scriptDir i m
          = scriptDir ++ "/" ++ (toString (i + 1) ++ "-explanation-" ++ m ++ ".html"))
      ∧ (∀ s1 s2 : String,
          writeEvents (methodEvents scriptDir m cfg [s1, s2] n)
            = [scriptDir ++ "/" ++ ("1-explanation-" ++ m ++ ".html"),
               scriptDir ++ "/" ++ ("2-explanation-" ++ m ++ ".html")])
      ∧ (∀ (fs : List (String × String)) (name content : String),
          List.lookup name (fsWrite fs name content) = some content) := by
  intro scriptDir m cfg samples n _
  refine ⟨writeEvents_methodEvents scriptDir m cfg samples n,
    samplesWrites_length scriptDir m samples 0,
    fun i => rfl, ?_, ?_⟩
  · intro s1 s2
    rw [writeEvents_methodEvents]
    rfl
  · intro fs name content
    show List.lookup name ((name, content) :: _) = some content
    simp [List.lookup]

/-- Witness for C5 at method `"svm"`. -/
theorem C5_html_file_naming_witness :
    writeEvents (methodEvents "d" "svm" svmCfg ["a", "b"] 9)
        = samplesWrites "d" "svm" 0 ["a", "b"]
    ∧ (samplesWrites "d" "svm" 0 ["a", "b"]).length
        = (["a", "b"] : List String).length
    ∧ (∀ i : Nat, htmlPath "d" i "svm"
        = "d" ++ "/" ++ (toString (i + 1) ++ "-explanation-" ++ "svm" ++ ".html"))
    ∧ (∀ s1 s2 : String,
        writeEvents (methodEvents "d" "svm" svmCfg [s1, s2] 9)
          = ["d" ++ "/" ++ ("1-explanation-" ++ "svm" ++ ".html"),
             "d" ++ "/" ++ ("2-explanation-" ++ "svm" ++ ".html")])
    ∧ (∀ (fs : List (String × String)) (name content : String),
        List.lookup name (fsWrite fs name content) = some content) :=
  C5_html_file_naming "d" "svm" svmCfg ["a", "b"] 9 (by decide)

/-- C9: the driver iterates strictly sequentially with the method loop
outermost and the sample loop innermost: on valid input the trace is the
concatenation of the per-method traces, each of which is the method
banner followed by the per-sample events in order. -/
theorem C9_sequential_loops :
    ∀ (scriptDir : String) (methods samples : List String) (n : Nat),
      (∀ m ∈ methods, (List.lookup m METHODS).isSome = true) →
      runMain scriptDir methods samples n
        = ((methods.map fun m => methodTraceOf scriptDir m samples n).flatten,
           none)
      ∧ (∀ (m : String) (cfg : MethodConfig),
          List.lookup m METHODS = some cfg →
          methodTraceOf scriptDir m samples n
            = MainEvent.printLine ("Method: " ++ m.toUpper)
              :: samplesEvents scriptDir m cfg.file cfg.lowercase n 0 samples)
      ∧ (∀ (method path : String) (lc : Bool) (i : Nat) (text : String)
          (rest : List String),
          samplesEvents scriptDir method path lc n i (text :: rest)
            = sampleEvents scriptDir method path lc n i text
              ++ samplesEvents scriptDir method path lc n (i + 1) rest) := by
  intro scriptDir methods samples n hval
  refine ⟨runMain_all_valid scriptDir samples n methods hval, ?_, ?_⟩
  · intro m cfg hcfg
    simp only [methodTraceOf, hcfg]
    rfl
  · intro method path lc i text rest
    rfl

/-- Witness for C9 with both registered methods. -/
theorem C9_sequential_loops_witness :
    runMain "d" ["logistic", "svm"] ["a"] 5
      = (((["logistic", "svm"]).map
            fun m => methodTraceOf "d" m ["a"] 5).flatten, none)
    ∧ (∀ (m : String) (cfg : MethodConfig),
        List.lookup m METHODS = some cfg →
        methodTraceOf "d" m ["a"] 5
          = MainEvent.printLine ("Method: " ++ m.toUpper)
            :: samplesEvents "d" m cfg.file cfg.lowercase 5 0 ["a"])
    ∧ (∀ (method path : String) (lc : Bool) (i : Nat) (text : String)
        (rest : List String),
        samplesEvents "d" method path lc 5 i (text :: rest)
          = sampleEvents "d" method path lc 5 i text
            ++ samplesEvents "d" method path lc 5 (i + 1) rest) :=
  C9_sequential_loops "d" ["logistic", "svm"] ["a"] 5 (by decide)

/-- Whether an event is not a lowercasing explain call. -/
def noLowercaseEv : MainEvent → Bool
  | MainEvent.explainCall _ _ _ lc _ => !lc
  | _ => true

theorem lookup_lowercase_false :
    ∀ (m : String) (cfg : MethodConfig),
      List.lookup m METHODS = some cfg → cfg.lowercase = false := by
  intro m cfg h
  cases hb1 : m == "logistic" with
  | true =>
    have h0 : List.lookup m METHODS = some logisticCfg := by
      simp [METHODS, List.lookup, hb1]
    rw [h0] at h
    injection h with h
    exact h ▸ rfl
  | false =>
    cases hb2 : m == "svm" with
    | true =>
      have h0 : List.lookup m METHODS = some svmCfg := by
        simp [METHODS, List.lookup, hb1, hb2]
      rw [h0] at h
      injection h with h
      exact h ▸ rfl
    | false =>
      exfalso
      simp [METHODS, List.lookup, hb1, hb2] at h

theorem samplesEvents_noLower (scriptDir method path : String) (n : Nat) :
    ∀ (samples : List String) (i : Nat),
      ((samplesEvents scriptDir method path false n i samples).all
        noLowercaseEv) = true := by
  intro samples
  induction samples with
  | nil => intro i; rfl
  | cons t rest ih =>
    intro i
    show ((sampleEvents scriptDir method path false n i t
        ++ samplesEvents scriptDir method path false n (i + 1) rest).all
          noLowercaseEv) = true
    rw [List.all_append]
    rw [show (sampleEvents scriptDir method path false n i t).all noLowercaseEv
        = true from rfl]
    rw [ih (i + 1)]
    rfl

theorem runMain_noLower (scriptDir : String) (samples : List String) (n : Nat) :
    ∀ methods : List String,
      ((runMain scriptDir methods samples n).1.all noLowercaseEv) = true := by
  intro methods
  induction methods with
  | nil => rfl
  | cons m rest ih =>
    cases hl : List.lookup m METHODS with
    | none =>
      simp only [runMain, hl]
      rfl
    | some cfg =>
      simp only [runMain, hl]
      rw [List.all_append]
      have hlc := lookup_lowercase_false m cfg hl
      have h1 : ((methodEvents scriptDir m cfg samples n).all noLowercaseEv)
          = true := by
        show ((MainEvent.printLine ("Method: " ++ m.toUpper)
            :: samplesEvents scriptDir m cfg.file cfg.lowercase n 0 samples).all
              noLowercaseEv) = true
        rw [List.all_cons, hlc, samplesEvents_noLower]
        rfl
      rw [h1, ih]
      rfl

/-- C10: both registered methods have their lowercase flag set to
`False`, every explain call issued by `main` passes `lowercase = False`,
and `explainer` with `lowercase = False` leaves the text unchanged, so
the lowercasing branch is unreachable from `main`. -/
theorem C10_never_lowercased :
    (METHODS.all fun p => p.2.lowercase == false) = true
    ∧ (∀ (scriptDir : String) (methods samples : List String) (n : Nat),
        ((runMain scriptDir methods samples n).1.all noLowercaseEv) = true)
    ∧ (∀ (readTsv : String → List (String × String))
        (method path text : String) (n : Nat),
        ((explainer readTsv method path text false n).all
          fun run => run.call.text == text) = true) := by
  refine ⟨by decide, ?_, ?_⟩
  · intro scriptDir methods samples n
    exact runMain_noLower scriptDir samples n methods
  · intro readTsv method path text n
    cases he : explainer_class readTsv method path with
    | none => simp [explainer, he, Option.all]
    | some w => simp [explainer, he, Option.all]

end SentimentLime
